import Mathlib

/-!
Shallow embedding of `blockhash/blockhash.py` (perceptual block-mean image
hashing).  Python integers are modelled as `ℤ`, Python floats as exact
rationals `ℚ`; the dynamic int/float distinction of Python values is kept in
the `Num` type because it is observable at `bits_to_hexhash` (`str` of a
float never parses as a binary literal).  Fallible operations (index errors,
`int(..., 2)` parse errors, division by zero) are modelled with
`Option`/`Except PyError`.
-/

namespace Blockhash

/-- Python exceptions that the code under analysis can raise. -/
inductive PyError where
  | runtimeError (msg : String)
  | valueError (msg : String)
  | indexError
  | zeroDivisionError
deriving DecidableEq, Repr

/-- A Python number: either an `int` or a `float`.  Floats are modelled as
exact rationals. -/
inductive Num where
  | int : ℤ → Num
  | float : ℚ → Num
deriving DecidableEq, Repr

/-- Numeric value of a Python number (ints and floats compare by value). -/
def Num.val : Num → ℚ
  | .int n => (n : ℚ)
  | .float q => q

/-- Python `+`: `int + int` is an `int`, any operand being a `float` makes
the result a `float`. -/
def Num.add : Num → Num → Num
  | .int a, .int b => .int (a + b)
  | a, b => .float (a.val + b.val)

/-- Python `*`: `int * int` is an `int`, any operand being a `float` makes
the result a `float`. -/
def Num.mul : Num → Num → Num
  | .int a, .int b => .int (a * b)
  | a, b => .float (a.val * b.val)

/-- Channel mode of a PIL image (`im.mode`). -/
inductive PixelMode where
  | RGB
  | RGBA
  | other (s : String)
deriving DecidableEq, Repr

/-- A decoded image: size, channel mode and random-access pixel data.
`pix x y` is the tuple `data[y * width + x]` of the Python code (row-major
`im.getdata()` indexing is absorbed into the coordinate access); in `RGB`
mode the fourth component is absent in Python and is ignored here. -/
structure Img where
  width : ℕ
  height : ℕ
  mode : PixelMode
  pix : ℕ → ℕ → ℕ × ℕ × ℕ × ℕ

/-- `total_value_rgba`: brightness of an RGBA pixel; a fully transparent
pixel counts as pure white (765), otherwise `r + g + b`. -/
def total_value_rgba (im : Img) (x y : ℕ) : ℕ :=
  let p := im.pix x y
  if p.2.2.2 = 0 then 765 else p.1 + p.2.1 + p.2.2.1

/-- `total_value_rgb`: brightness of an RGB pixel, `r + g + b`. -/
def total_value_rgb (im : Img) (x y : ℕ) : ℕ :=
  let p := im.pix x y
  p.1 + p.2.1 + p.2.2.1

/-- The brightness sampler selected by the mode dispatch at the top of
`blockhash` / `blockhash_even` (lines 56-62 and 86-92); only meaningful for
`RGB`/`RGBA` modes. -/
def imTV (im : Img) : ℕ → ℕ → ℕ :=
  match im.mode with
  | .RGBA => total_value_rgba im
  | _ => total_value_rgb im

/-- `median(data)`: sort, then take the middle element (odd length) or the
mean of the two central elements (even length).  On the empty list Python
evaluates `data[-1]`, raising `IndexError`, hence `none`.  `sorted(data)`
is modelled by insertion sort, which like Python's sort produces the
ordered (stable) permutation of the input. -/
def median (data : List ℚ) : Option ℚ :=
  let d := data.insertionSort (· ≤ ·)
  if d.length % 2 = 0 then
    if d.length = 0 then none
    else some ((d.getD (d.length / 2 - 1) 0 + d.getD (d.length / 2) 0) / 2)
  else some (d.getD (d.length / 2) 0)

/-- Python `abs` on a number (kernel-computable form of `|q|`). -/
def pyabs (q : ℚ) : ℚ := if q < 0 then -q else q

/-- One band of `translate_blocks_to_bits`: threshold every value of the
band against the band's median, with the tie-break toward 1 when the median
exceeds `half_block_value` (line 49 of the source). -/
def bandBits (band : List Num) (half : ℚ) : Option (List Num) :=
  match median (band.map Num.val) with
  | none => none
  | some m =>
    some (band.map (fun v =>
      Num.int (if m < v.val ∨ (pyabs (v.val - m) < 1 ∧ half < m) then 1 else 0)))

/-- `translate_blocks_to_bits(blocks, pixels_per_block)`: process the four
bands `blocks[i*bandsize:(i+1)*bandsize]`; entries beyond `4 * bandsize`
are left untouched (the Python code mutates in place and never visits
them). -/
def translate_blocks_to_bits (blocks : List Num) (pixels_per_block : ℚ) :
    Option (List Num) :=
  let half_block_value := pixels_per_block * 256 * 3 / 2
  let bandsize := blocks.length / 4
  match (List.range 4).mapM
      (fun i => bandBits ((blocks.drop (i * bandsize)).take bandsize) half_block_value) with
  | none => none
  | some bands => some (bands.flatten ++ blocks.drop (4 * bandsize))

/-- Base-`b` digits of `n`, least significant first, with explicit fuel so
that the recursion is structural (agrees with `Nat.digits` for `2 ≤ b`,
see `toBase_eq_digits`). -/
def toBaseAux (b : ℕ) : ℕ → ℕ → List ℕ
  | 0, _ => []
  | _ + 1, 0 => []
  | fuel + 1, n + 1 => (n + 1) % b :: toBaseAux b fuel ((n + 1) / b)

/-- Base-`b` digits of `n`, least significant first. -/
def toBase (b n : ℕ) : List ℕ := toBaseAux b n n

/-- Decimal digit string of a nonnegative integer (`str(n)` in Python),
most significant digit first. -/
def decDigits (n : ℕ) : List ℕ :=
  if n = 0 then [0] else (toBase 10 n).reverse

/-- Digits contributed by one list entry to the string
`''.join([str(x) for x in bits])`.  An `int` contributes its decimal
digits; a `float` renders with a decimal point, which `int(..., 2)`
rejects, and a negative `int` renders with a minus sign, likewise rejected
(never reached: block values are nonnegative). -/
def numStrDigits : Num → Option (List ℕ)
  | .int n => if n < 0 then none else some (decDigits n.toNat)
  | .float _ => none

/-- Lowercase hexadecimal digit character for `d < 16`. -/
def hexChar (d : ℕ) : Char :=
  if d < 10 then Char.ofNat (48 + d) else Char.ofNat (87 + d)

/-- Lowercase hexadecimal rendering of a natural number (`'{:x}'`). -/
def hexDigitsOf (n : ℕ) : List Char :=
  if n = 0 then ['0'] else ((toBase 16 n).map hexChar).reverse

/-- `'{0:0={width}x}'.format(n, width)`: left-pad the hexadecimal rendering
with zeros to `width` characters (no truncation if longer). -/
def hexFormat (n w : ℕ) : String :=
  ⟨List.replicate (w - (hexDigitsOf n).length) '0' ++ hexDigitsOf n⟩

/-- `bits_to_hexhash(bits)`: join the string forms of the entries, parse
the result as a binary literal (`ValueError` if any character is not a
binary digit or the string is empty), then format as zero-padded lowercase
hex of width `len(bits) // 4`. -/
def bits_to_hexhash (bits : List Num) : Except PyError String :=
  match bits.mapM numStrDigits with
  | none => .error (.valueError "invalid literal for int() with base 2")
  | some dss =>
    let ds := dss.flatten
    if ds = [] ∨ ds.any (fun d => 2 ≤ d) then
      .error (.valueError "invalid literal for int() with base 2")
    else
      .ok (hexFormat (ds.foldl (fun acc d => 2 * acc + d) 0) (bits.length / 4))

/-- Body of `blockhash_even` after the mode dispatch, parameterized by the
brightness sampler `tv` (the Python local `total_value`).  `width // bits`
with `bits = 0` raises `ZeroDivisionError` in Python. -/
def blockhash_even_core (tv : ℕ → ℕ → ℕ) (width height bits : ℕ) :
    Except PyError String :=
  if bits = 0 then .error .zeroDivisionError
  else
    let blocksize_x := width / bits
    let blocksize_y := height / bits
    let result : List Num :=
      (List.range bits).flatMap (fun y =>
        (List.range bits).map (fun x =>
          Num.int ((List.range blocksize_y).foldl (fun acc iy =>
            (List.range blocksize_x).foldl (fun acc2 ix =>
              acc2 + (tv (x * blocksize_x + ix) (y * blocksize_y + iy) : ℤ)) acc) 0)))
    match translate_blocks_to_bits result ((blocksize_x * blocksize_y : ℕ) : ℚ) with
    | none => .error .indexError
    | some res => bits_to_hexhash res

/-- `blockhash_even(im, bits)` (lines 56-84): exact-division algorithm with
the mode dispatch of lines 57-62. -/
def blockhash_even (im : Img) (bits : ℕ) : Except PyError String :=
  match im.mode with
  | .RGBA => blockhash_even_core (total_value_rgba im) im.width im.height bits
  | .RGB => blockhash_even_core (total_value_rgb im) im.width im.height bits
  | .other s => .error (.runtimeError ("Unsupported image mode: " ++ s))

/-- Python float modulo for a positive modulus: `a % b = a - b * ⌊a / b⌋`. -/
def pymod (a b : ℚ) : ℚ := a - b * ⌊a / b⌋

/-- Per-coordinate data of the weighted loop for one axis (the y-block of
lines 109-124 of the source; the x-block of lines 129-144 is identical with
`width` for `height`): the two target block indices and the two weights.
`int(i // block_size)` is `⌊i / bs⌋` and `int(-(-i // block_size))` is
`⌈i / bs⌉`; `math.modf` splits `(i + 1) % bs` into fractional and integral
parts. -/
def axisParams (n bits i : ℕ) : ℕ × ℕ × Num × Num :=
  let bs : ℚ := (n : ℚ) / (bits : ℚ)
  if n % bits = 0 then
    ((⌊(i : ℚ) / bs⌋).toNat, (⌊(i : ℚ) / bs⌋).toNat, Num.int 1, Num.int 0)
  else
    let r := pymod ((i : ℚ) + 1) bs
    let i_frac := r - (⌊r⌋ : ℚ)
    let i_int : ℚ := (⌊r⌋ : ℚ)
    let wlo := Num.float (1 - i_frac)
    let whi := Num.float i_frac
    if 0 < i_int ∨ i + 1 = n then
      ((⌊(i : ℚ) / bs⌋).toNat, (⌊(i : ℚ) / bs⌋).toNat, wlo, whi)
    else
      ((⌊(i : ℚ) / bs⌋).toNat, (⌈(i : ℚ) / bs⌉).toNat, wlo, whi)

/-- Cell read `blocks[r][c]` (total, with junk default; only used at
indices that exist). -/
def getCell (g : List (List Num)) (r c : ℕ) : Num :=
  (g.getD r []).getD c (Num.int 0)

/-- `blocks[r][c] += v`: `none` models Python's `IndexError` on an
out-of-range block index. -/
def addAt (g : List (List Num)) (r c : ℕ) (v : Num) : Option (List (List Num)) :=
  match g.get? r with
  | none => none
  | some row =>
    match row.get? c with
    | none => none
    | some old => some (g.set r (row.set c (old.add v)))

/-- The four weighted updates of lines 147-150, in source order. -/
def addPixel (g : List (List Num)) (v : Num)
    (yp xp : ℕ × ℕ × Num × Num) : Option (List (List Num)) := do
  let (block_top, block_bottom, weight_top, weight_bottom) := yp
  let (block_left, block_right, weight_left, weight_right) := xp
  let g1 ← addAt g block_top block_left ((v.mul weight_top).mul weight_left)
  let g2 ← addAt g1 block_top block_right ((v.mul weight_top).mul weight_right)
  let g3 ← addAt g2 block_bottom block_left ((v.mul weight_bottom).mul weight_left)
  addAt g3 block_bottom block_right ((v.mul weight_bottom).mul weight_right)

/-- The weighted-distribution double loop of lines 103-150: distribute
every pixel's brightness over up to four blocks of a `bits × bits` grid. -/
def weightedGrid (tv : ℕ → ℕ → ℕ) (width height bits : ℕ) :
    Option (List (List Num)) :=
  (List.range height).foldlM (fun g y =>
    let yp := axisParams height bits y
    (List.range width).foldlM (fun g2 x =>
      addPixel g2 (Num.int (tv x y)) yp (axisParams width bits x)) g)
    (List.replicate bits (List.replicate bits (Num.int 0)))

/-- Row-major flattening `[blocks[row][col] for row in range(bits) for col
in range(bits)]` (line 152). -/
def blocksToList (g : List (List Num)) (bits : ℕ) : List Num :=
  (List.range bits).flatMap (fun row =>
    (List.range bits).map (fun col => getCell g row col))

/-- Lines 103-155 of `blockhash` (the weighted-distribution tail),
parameterized by the brightness sampler.  `width % bits` with `bits = 0`
raises `ZeroDivisionError` in Python before this tail is reached, so the
guard sits here as well. -/
def blockhash_weighted_core (tv : ℕ → ℕ → ℕ) (width height bits : ℕ) :
    Except PyError String :=
  if bits = 0 then .error .zeroDivisionError
  else
    match weightedGrid tv width height bits with
    | none => .error .indexError
    | some blocks =>
      match translate_blocks_to_bits (blocksToList blocks bits)
          ((width : ℚ) / (bits : ℚ) * ((height : ℚ) / (bits : ℚ))) with
      | none => .error .indexError
      | some res => bits_to_hexhash res

/-- Body of `blockhash` after the mode dispatch: route to `blockhash_even`
when both dimensions divide evenly, otherwise run the weighted loop. -/
def blockhash_core (tv : ℕ → ℕ → ℕ) (im : Img) (bits : ℕ) :
    Except PyError String :=
  if bits = 0 then .error .zeroDivisionError
  else
    let even_x := im.width % bits = 0
    let even_y := im.height % bits = 0
    if even_x ∧ even_y then blockhash_even im bits
    else blockhash_weighted_core tv im.width im.height bits

/-- `blockhash(im, bits)` (lines 86-155): mode dispatch, then exact
division when possible, else the weighted-distribution algorithm. -/
def blockhash (im : Img) (bits : ℕ) : Except PyError String :=
  match im.mode with
  | .RGBA => blockhash_core (total_value_rgba im) im bits
  | .RGB => blockhash_core (total_value_rgb im) im bits
  | .other s => .error (.runtimeError ("Unsupported image mode: " ++ s))

/-- The weighted-distribution algorithm run unconditionally: `blockhash`
with the even-division shortcut of lines 97-101 removed, so that the
sub-pixel weighted aggregation loop itself can be compared with
`blockhash_even` on evenly divisible images. -/
def blockhash_weighted (im : Img) (bits : ℕ) : Except PyError String :=
  match im.mode with
  | .RGBA => blockhash_weighted_core (total_value_rgba im) im.width im.height bits
  | .RGB => blockhash_weighted_core (total_value_rgb im) im.width im.height bits
  | .other s => .error (.runtimeError ("Unsupported image mode: " ++ s))

/-- PIL interpolation constants (`Image.NEAREST` etc.). -/
inductive Interp where
  | NEAREST
  | BILINEAR
  | BICUBIC
  | ANTIALIAS
deriving DecidableEq, Repr

/-- `ImageBlockhashCalculator.__parse_interpolation`: map 1..4 to the PIL
constant, else raise `ValueError`. -/
def parse_interpolation (interpolation : ℤ) : Except PyError Interp :=
  if interpolation = 1 then .ok .NEAREST
  else if interpolation = 2 then .ok .BILINEAR
  else if interpolation = 3 then .ok .BICUBIC
  else if interpolation = 4 then .ok .ANTIALIAS
  else .error (.valueError "interpolation must be an int between 1 and 4.")

/-- `ImageBlockhashCalculator.__verify_size_param`: `None` passes through;
a length-2 tuple is normalized (a tuple of any other length falls off the
end of the Python function and also yields `None`; the model's `Option`
pairs always have length 2). -/
def verify_size_param (size : Option (ℤ × ℤ)) : Option (ℤ × ℤ) :=
  match size with
  | none => none
  | some (a, b) => some (a, b)

/-- State of a constructed `ImageBlockhashCalculator`.  `quick` records
which hashing function `set_blockhash_method` stored (`blockhash_even`
when quick, `blockhash` otherwise). -/
structure ImageBlockhashCalculator where
  quick : Bool
  bits : ℤ
  size : Option (ℤ × ℤ)
  interpolation : Interp
  debug : Bool
deriving DecidableEq, Repr

/-- `ImageBlockhashCalculator.__init__`: store the method and options;
parsing the interpolation can raise `ValueError`, eagerly, during
construction (no image is involved). -/
def calculator_init (quick : Bool) (bits : ℤ) (size : Option (ℤ × ℤ))
    (interpolation : ℤ) (debug : Bool) : Except PyError ImageBlockhashCalculator :=
  match parse_interpolation interpolation with
  | .error e => .error e
  | .ok interp =>
    .ok { quick := quick, bits := bits, size := verify_size_param size,
          interpolation := interp, debug := debug }

/-- A solid-white 4×4 RGB image. -/
def white4 : Img :=
  { width := 4, height := 4, mode := .RGB, pix := fun _ _ => (255, 255, 255, 255) }

/-- A solid-white 8×8 RGB image. -/
def white8 : Img :=
  { width := 8, height := 8, mode := .RGB, pix := fun _ _ => (255, 255, 255, 255) }

/-- A block grid is a well-formed `bits × bits` matrix. -/
def gridShape (bits : ℕ) (g : List (List Num)) : Prop :=
  g.length = bits ∧ ∀ row ∈ g, row.length = bits

/-- Total numeric content of a block grid. -/
def gridSumVal (g : List (List Num)) : ℚ :=
  (g.map (fun row => (row.map Num.val).sum)).sum

/-- Total brightness of an image region sampled by `tv`. -/
def totalBrightness (tv : ℕ → ℕ → ℕ) (w h : ℕ) : ℚ :=
  ∑ y ∈ Finset.range h, ∑ x ∈ Finset.range w, (tv x y : ℚ)

/-- The `bits × bits` grid whose cell `(r, c)` holds the integer `f r c`. -/
def gridOf (bits : ℕ) (f : ℕ → ℕ → ℤ) : List (List Num) :=
  (List.range bits).map (fun r => (List.range bits).map (fun c => Num.int (f r c)))

/-- Brightness collected by block `(r, c)` from the pixels of the first `k`
rows (and, within row `k`, the first `j` pixels) when each pixel `(x, y)`
is assigned to block row `y / bsy` and block column `x / bsx`. -/
def cellSum (tv : ℕ → ℕ → ℕ) (w bsx bsy r c k j : ℕ) : ℤ :=
  (∑ y ∈ Finset.range k, ∑ x ∈ Finset.range w,
    if y / bsy = r ∧ x / bsx = c then (tv x y : ℤ) else 0) +
  ∑ x ∈ Finset.range j, if k / bsy = r ∧ x / bsx = c then (tv x k : ℤ) else 0

/-- Lowercase hexadecimal digit character test. -/
def isLowerHexDigit (c : Char) : Bool :=
  (48 ≤ c.toNat && c.toNat ≤ 57) || (97 ≤ c.toNat && c.toNat ≤ 102)

instance : DecidableEq (Except PyError String) :=
  fun a b =>
    match a, b with
    | .ok x, .ok y =>
      if h : x = y then isTrue (by rw [h]) else isFalse (by simp [h])
    | .error x, .error y =>
      if h : x = y then isTrue (by rw [h]) else isFalse (by simp [h])
    | .ok _, .error _ => isFalse (fun h => Except.noConfusion h)
    | .error _, .ok _ => isFalse (fun h => Except.noConfusion h)

/-! ### Basic lemmas -/

theorem toBaseAux_eq_digits {b : ℕ} (hb : 2 ≤ b) :
    ∀ fuel n, n ≤ fuel → toBaseAux b fuel n = Nat.digits b n := by
  intro fuel
  induction fuel with
  | zero => intro n hn; interval_cases n; simp [toBaseAux]
  | succ fuel ih =>
    intro n hn
    match n with
    | 0 => simp [toBaseAux]
    | n + 1 =>
      rw [toBaseAux, Nat.digits_def' (by omega : 1 < b) (Nat.succ_pos n)]
      congr 1
      apply ih
      have h2 : (n + 1) / b ≤ (n + 1) / 2 := Nat.div_le_div_left hb (by omega)
      omega

theorem toBase_eq_digits {b : ℕ} (hb : 2 ≤ b) (n : ℕ) :
    toBase b n = Nat.digits b n :=
  toBaseAux_eq_digits hb n n le_rfl

theorem getD_replicate' {α : Type} (n i : ℕ) (a d : α) (h : i < n) :
    (List.replicate n a).getD i d = a := by
  rw [List.getD_eq_getElem?_getD, List.getElem?_replicate, if_pos h]
  rfl

theorem insertionSort_replicate (n : ℕ) (q : ℚ) :
    (List.replicate n q).insertionSort (· ≤ ·) = List.replicate n q := by
  have h := List.perm_insertionSort (α := ℚ) (· ≤ ·) (List.replicate n q)
  exact List.perm_replicate.mp h

theorem median_replicate {n : ℕ} (hn : n ≠ 0) (q : ℚ) :
    median (List.replicate n q) = some q := by
  unfold median
  rw [insertionSort_replicate]
  dsimp only
  rw [List.length_replicate]
  by_cases h2 : n % 2 = 0
  · rw [if_pos h2, if_neg hn, getD_replicate' n (n / 2 - 1) q 0 (by omega),
      getD_replicate' n (n / 2) q 0 (by omega)]
    norm_num
  · rw [if_neg h2, getD_replicate' n (n / 2) q 0 (by omega)]

theorem median_isSome {d : List ℚ} (hd : d ≠ []) : ∃ m, median d = some m := by
  unfold median
  have hlen : (d.insertionSort (· ≤ ·)).length = d.length := List.length_insertionSort _ _
  by_cases h2 : (d.insertionSort (· ≤ ·)).length % 2 = 0
  · rw [if_pos h2, if_neg (by simpa [hlen, List.length_eq_zero] using hd)]
    exact ⟨_, rfl⟩
  · rw [if_neg h2]
    exact ⟨_, rfl⟩

theorem bandBits_isSome {band : List Num} (hband : band ≠ []) (half : ℚ) :
    ∃ l, bandBits band half = some l ∧ l.length = band.length := by
  obtain ⟨m, hm⟩ := median_isSome (d := band.map Num.val) (by simpa using hband)
  unfold bandBits
  rw [hm]
  exact ⟨_, rfl, by simp⟩

/-- The value `bandBits` assigns to a band all of whose values are `q`. -/
theorem bandBits_replicate_val {band : List Num} {q : ℚ} (hband : band ≠ [])
    (hval : ∀ e ∈ band, Num.val e = q) (half : ℚ) :
    bandBits band half =
      some (List.replicate band.length (Num.int (if half < q then 1 else 0))) := by
  have hmap : band.map Num.val = List.replicate band.length q := by
    have : ∀ b ∈ band.map Num.val, b = q := by
      intro b hb
      obtain ⟨e, he, rfl⟩ := List.mem_map.mp hb
      exact hval e he
    simpa using List.eq_replicate_of_mem this
  have hmed : median (band.map Num.val) = some q := by
    rw [hmap]
    exact median_replicate (by simpa [List.length_eq_zero] using hband) q
  unfold bandBits
  rw [hmed]
  have : ∀ b ∈ band.map (fun v =>
      Num.int (if q < v.val ∨ (pyabs (v.val - q) < 1 ∧ half < q) then 1 else 0)),
      b = Num.int (if half < q then 1 else 0) := by
    intro b hb
    obtain ⟨e, he, rfl⟩ := List.mem_map.mp hb
    rw [hval e he]
    congr 1
    simp [pyabs]
  simpa using List.eq_replicate_of_mem this

/-- C3: in a band all of whose values equal the band's median, the
thresholding step emits uniformly 1 when the median exceeds
`half_block_value = pixels_per_block * 384`, uniformly 0 otherwise.
Stated for band `i` of `translate_blocks_to_bits`: if every entry of the
band has value `q` (so the band's median is `q`), the corresponding
segment of the output is all ones iff `pixels_per_block * 256 * 3 / 2 < q`
and all zeros otherwise. -/
theorem c3_tiebreak_uniform_band (blocks : List Num) (ppb q : ℚ) (i : ℕ)
    (hbs : 0 < blocks.length / 4) (hi : i < 4)
    (hband : ∀ e ∈ (blocks.drop (i * (blocks.length / 4))).take (blocks.length / 4),
      Num.val e = q) :
    ∃ out, translate_blocks_to_bits blocks ppb = some out ∧
      (out.drop (i * (blocks.length / 4))).take (blocks.length / 4) =
        List.replicate (blocks.length / 4)
          (Num.int (if ppb * 256 * 3 / 2 < q then 1 else 0)) := by
  set bs := blocks.length / 4 with hbs_def
  set half := ppb * 256 * 3 / 2 with hhalf_def
  have hcover : 4 * bs ≤ blocks.length := by
    rw [hbs_def]
    have := Nat.div_mul_le_self blocks.length 4
    omega
  have hlen : ∀ j, j < 4 → ((blocks.drop (j * bs)).take bs).length = bs := by
    intro j hj
    rw [List.length_take, List.length_drop]
    have h1 : j * bs + bs ≤ 4 * bs := by
      calc j * bs + bs = (j + 1) * bs := by ring
        _ ≤ 4 * bs := Nat.mul_le_mul_right bs (by omega)
    omega
  have hne : ∀ j, j < 4 → (blocks.drop (j * bs)).take bs ≠ [] := by
    intro j hj h
    have := hlen j hj
    rw [h] at this
    simp at this
    omega
  -- the four band results
  have hbandi : bandBits ((blocks.drop (i * bs)).take bs) half =
      some (List.replicate bs (Num.int (if half < q then 1 else 0))) := by
    rw [bandBits_replicate_val (hne i hi) hband half, hlen i hi]
  obtain ⟨l0, hl0, hl0len⟩ := bandBits_isSome (hne 0 (by omega)) half
  obtain ⟨l1, hl1, hl1len⟩ := bandBits_isSome (hne 1 (by omega)) half
  obtain ⟨l2, hl2, hl2len⟩ := bandBits_isSome (hne 2 (by omega)) half
  obtain ⟨l3, hl3, hl3len⟩ := bandBits_isSome (hne 3 (by omega)) half
  rw [Nat.zero_mul, List.drop_zero] at hl0
  rw [Nat.one_mul] at hl1
  rw [hlen 0 (by omega)] at hl0len
  rw [hlen 1 (by omega)] at hl1len
  rw [hlen 2 (by omega)] at hl2len
  rw [hlen 3 (by omega)] at hl3len
  have hmapM : (List.range 4).mapM
      (fun j => bandBits ((blocks.drop (j * bs)).take bs) half) =
      some [l0, l1, l2, l3] := by
    rw [show List.range 4 = [0, 1, 2, 3] from rfl]
    simp [List.mapM, List.mapM.loop, hl0, hl1, hl2, hl3]
  have hout : translate_blocks_to_bits blocks ppb =
      some (l0 ++ (l1 ++ (l2 ++ (l3 ++ blocks.drop (4 * bs))))) := by
    unfold translate_blocks_to_bits
    dsimp only
    rw [← hbs_def, ← hhalf_def, hmapM]
    simp [List.append_assoc]
  refine ⟨_, hout, ?_⟩
  interval_cases i
  · rw [Nat.zero_mul, List.drop_zero] at hbandi
    have hv := Option.some.inj (hl0.symm.trans hbandi)
    rw [Nat.zero_mul, List.drop_zero, List.take_left' hl0len, hv]
  · rw [Nat.one_mul] at hbandi
    have hv := Option.some.inj (hl1.symm.trans hbandi)
    rw [Nat.one_mul, List.drop_left' hl0len, List.take_left' hl1len, hv]
  · have hv := Option.some.inj (hl2.symm.trans hbandi)
    rw [show 2 * bs = bs + bs from by ring, ← List.drop_drop,
      List.drop_left' hl0len, List.drop_left' hl1len, List.take_left' hl2len, hv]
  · have hv := Option.some.inj (hl3.symm.trans hbandi)
    rw [show 3 * bs = bs + (bs + bs) from by ring, ← List.drop_drop, ← List.drop_drop,
      List.drop_left' hl0len, List.drop_left' hl1len, List.drop_left' hl2len,
      List.take_left' hl3len, hv]

/-- C9: the hex encoder maps the 16-bit sequence 1111000011110000 to the
string "f0f0" (big-endian binary value, lowercase hex, left-padded to
16/4 = 4 characters). -/
theorem c9_hexhash_f0f0 :
    bits_to_hexhash ([1, 1, 1, 1, 0, 0, 0, 0, 1, 1, 1, 1, 0, 0, 0, 0].map Num.int) =
      .ok "f0f0" := by with_unfolding_all decide

/-- C1 counterexample: the exact-division pipeline on a 4×4 solid-white
RGB image with bits = 2 does not produce the hash "0". -/
theorem c1_white4_bits2_hash_ne_zero :
    blockhash_even white4 2 ≠ .ok "0" := by with_unfolding_all decide

/-- C1 (amended): the exact-division pipeline on a 4×4 solid-white RGB
image with bits = 2 produces the hash "f" — every band consists of the
single block sum 3060, the median 3060 exceeds `half_block_value` = 1536,
so the tie-break emits all ones, and 1111₂ encodes as "f". -/
theorem c1_white4_bits2_hash_eq_f :
    blockhash_even white4 2 = .ok "f" := by with_unfolding_all decide

set_option maxRecDepth 40000 in
/-- C8 counterexample: an 8×8 RGB image hashed with bits = 3 routes through
the weighted-distribution algorithm but does not complete: since
bits² = 9 is not divisible by 4, `translate_blocks_to_bits` leaves the
ninth block sum as a float, whose string form makes `int(..., 2)` in
`bits_to_hexhash` raise `ValueError`. -/
theorem c8_white8_bits3_raises :
    blockhash white8 3 = .error (.valueError "invalid literal for int() with base 2") := by
  with_unfolding_all decide

set_option maxRecDepth 40000 in
/-- C8 (amended): for the 8×8 RGB image with bits = 3 the weighted loop
itself completes — every computed block row/column index stays within
[0, 3), so no out-of-range access occurs (an out-of-range index would make
`weightedGrid` return `none`) — but the overall hash computation then
raises `ValueError` in `bits_to_hexhash` because bits² = 9 is not
divisible by 4 and the ninth block sum is never converted to a bit. -/
theorem c8_weighted_loop_completes_but_encoding_raises :
    (weightedGrid (total_value_rgb white8) 8 8 3).isSome = true ∧
      blockhash white8 3 = .error (.valueError "invalid literal for int() with base 2") := by
  constructor
  · with_unfolding_all decide
  · with_unfolding_all decide

/-- C4 counterexample: bits = 0 satisfies "bits² divisible by 4", yet the
hash computation on an RGB image raises `ZeroDivisionError`
(`width % bits` in Python) instead of returning a 0-character hash. -/
theorem c4_bits_zero_raises :
    blockhash white4 0 = .error .zeroDivisionError := by with_unfolding_all decide

/-- C7: constructing `ImageBlockhashCalculator` with an interpolation value
outside {1, 2, 3, 4} raises `ValueError` eagerly during `__init__` (no
image is consumed by construction), and with a value inside {1, 2, 3, 4}
the construction succeeds with no error. -/
theorem c7_interpolation_validation (quick : Bool) (bits : ℤ)
    (size : Option (ℤ × ℤ)) (interpolation : ℤ) (debug : Bool) :
    (calculator_init quick bits size interpolation debug =
        .error (.valueError "interpolation must be an int between 1 and 4.") ↔
      ¬(interpolation = 1 ∨ interpolation = 2 ∨ interpolation = 3 ∨ interpolation = 4)) ∧
    ((∃ c, calculator_init quick bits size interpolation debug = .ok c) ↔
      (interpolation = 1 ∨ interpolation = 2 ∨ interpolation = 3 ∨ interpolation = 4)) := by
  unfold calculator_init parse_interpolation
  split_ifs with h1 h2 h3 h4 <;> simp_all

set_option maxRecDepth 40000 in
/-- C3 witness: a concrete uniform band (four blocks of value 2000 with
pixels_per_block = 1, so the median 2000 exceeds half_block_value = 384)
thresholds to all ones. -/
theorem c3_tiebreak_uniform_band_witness :
    ∃ out, translate_blocks_to_bits
        [Num.int 2000, Num.int 2000, Num.int 2000, Num.int 2000] 1 = some out ∧
      (out.drop (0 * ([Num.int 2000, Num.int 2000, Num.int 2000, Num.int 2000].length / 4))).take
          ([Num.int 2000, Num.int 2000, Num.int 2000, Num.int 2000].length / 4) =
        List.replicate ([Num.int 2000, Num.int 2000, Num.int 2000, Num.int 2000].length / 4)
          (Num.int (if (1 : ℚ) * 256 * 3 / 2 < 2000 then 1 else 0)) :=
  c3_tiebreak_uniform_band [Num.int 2000, Num.int 2000, Num.int 2000, Num.int 2000] 1 2000 0
    (by with_unfolding_all decide) (by omega) (by with_unfolding_all decide)

/-- C5: an RGBA pixel with alpha = 0 hashes identically to an opaque white
pixel at the same position: two RGBA images of the same size that agree
everywhere except that one has pixel `(r, g, b, 0)` and the other
`(255, 255, 255, a)` with `a ≠ 0` at `(x, y)` produce the same hash, and
the RGBA sampler returns 765 at the transparent pixel. -/
theorem c5_alpha_zero_equals_white (im1 im2 : Img) (bits x y r g b a : ℕ)
    (h1 : im1.mode = .RGBA) (h2 : im2.mode = .RGBA)
    (hw : im1.width = im2.width) (hh : im1.height = im2.height)
    (hp1 : im1.pix x y = (r, g, b, 0)) (hp2 : im2.pix x y = (255, 255, 255, a))
    (ha : a ≠ 0)
    (hrest : ∀ p q, ¬(p = x ∧ q = y) → im1.pix p q = im2.pix p q) :
    blockhash im1 bits = blockhash im2 bits ∧ total_value_rgba im1 x y = 765 := by
  have htv : total_value_rgba im1 = total_value_rgba im2 := by
    funext p q
    by_cases hpq : p = x ∧ q = y
    · obtain ⟨rfl, rfl⟩ := hpq
      unfold total_value_rgba
      rw [hp1, hp2]
      simp [ha]
    · unfold total_value_rgba
      rw [hrest p q hpq]
  have heven : blockhash_even im1 bits = blockhash_even im2 bits := by
    unfold blockhash_even
    simp only [h1, h2]
    rw [htv, hw, hh]
  constructor
  · unfold blockhash
    simp only [h1, h2]
    unfold blockhash_core
    rw [hw, hh, htv, heven]
  · unfold total_value_rgba
    rw [hp1]
    rfl

/-- C5 witness: a concrete 4×4 RGBA image with a fully transparent pixel
at the origin hashes like the all-white-opaque image. -/
theorem c5_alpha_zero_equals_white_witness :
    blockhash
        { width := 4, height := 4, mode := .RGBA,
          pix := fun p q => if p = 0 ∧ q = 0 then (1, 2, 3, 0) else (255, 255, 255, 7) } 2 =
      blockhash
        { width := 4, height := 4, mode := .RGBA,
          pix := fun _ _ => (255, 255, 255, 7) } 2 ∧
    total_value_rgba
        { width := 4, height := 4, mode := .RGBA,
          pix := fun p q => if p = 0 ∧ q = 0 then (1, 2, 3, 0) else (255, 255, 255, 7) } 0 0 = 765 :=
  c5_alpha_zero_equals_white _ _ 2 0 0 1 2 3 7 rfl rfl rfl rfl
    (by simp) rfl (by omega) (fun p q h => if_neg h)

theorem bits_to_hexhash_ne_runtime (l : List Num) (msg : String) :
    bits_to_hexhash l ≠ .error (.runtimeError msg) := by
  unfold bits_to_hexhash
  rcases h : l.mapM numStrDigits with _ | dss
  · simp
  · dsimp only
    split_ifs <;> simp

theorem blockhash_even_core_ne_runtime (tv : ℕ → ℕ → ℕ) (w h bits : ℕ) (msg : String) :
    blockhash_even_core tv w h bits ≠ .error (.runtimeError msg) := by
  unfold blockhash_even_core
  split_ifs
  · simp
  · dsimp only
    split
    · simp
    · exact bits_to_hexhash_ne_runtime _ _

theorem blockhash_weighted_core_ne_runtime (tv : ℕ → ℕ → ℕ) (w h bits : ℕ) (msg : String) :
    blockhash_weighted_core tv w h bits ≠ .error (.runtimeError msg) := by
  unfold blockhash_weighted_core
  split_ifs
  · simp
  · split
    · simp
    · split
      · simp
      · exact bits_to_hexhash_ne_runtime _ _

theorem blockhash_even_ne_runtime (im : Img) (bits : ℕ) (msg : String)
    (hmode : im.mode = .RGB ∨ im.mode = .RGBA) :
    blockhash_even im bits ≠ .error (.runtimeError msg) := by
  unfold blockhash_even
  rcases hmode with h | h <;> rw [h] <;>
    exact blockhash_even_core_ne_runtime _ _ _ _ _

theorem blockhash_core_ne_runtime (tv : ℕ → ℕ → ℕ) (im : Img) (bits : ℕ) (msg : String)
    (hmode : im.mode = .RGB ∨ im.mode = .RGBA) :
    blockhash_core tv im bits ≠ .error (.runtimeError msg) := by
  unfold blockhash_core
  dsimp only
  split_ifs
  · simp
  · exact blockhash_even_ne_runtime im bits msg hmode
  · exact blockhash_weighted_core_ne_runtime _ _ _ _ _

/-- C6: the hash computation fails with the unsupported-mode
`RuntimeError` exactly when the image's channel mode is neither RGB nor
RGBA; for RGB and RGBA inputs no such error occurs (and an `error` result
carries no hash, so the failure happens before any result is produced). -/
theorem c6_unsupported_mode_iff (im : Img) (bits : ℕ) :
    (∃ msg, blockhash im bits = .error (.runtimeError msg)) ↔
      ¬(im.mode = .RGB ∨ im.mode = .RGBA) := by
  rcases hm : im.mode with _ | _ | s
  · constructor
    · rintro ⟨msg, hmsg⟩
      have heq : blockhash im bits = blockhash_core (total_value_rgb im) im bits := by
        unfold blockhash
        rw [hm]
      rw [heq] at hmsg
      exact absurd hmsg (blockhash_core_ne_runtime _ _ _ _ (Or.inl hm))
    · intro h
      exact absurd (Or.inl rfl) h
  · constructor
    · rintro ⟨msg, hmsg⟩
      have heq : blockhash im bits = blockhash_core (total_value_rgba im) im bits := by
        unfold blockhash
        rw [hm]
      rw [heq] at hmsg
      exact absurd hmsg (blockhash_core_ne_runtime _ _ _ _ (Or.inr hm))
    · intro h
      exact absurd (Or.inr rfl) h
  · constructor
    · intro _
      simp [hm]
    · intro _
      refine ⟨"Unsupported image mode: " ++ s, ?_⟩
      unfold blockhash
      rw [hm]

/-! ### Weighted-loop infrastructure: values, grids, index bounds -/

@[simp] theorem val_int (z : ℤ) : (Num.int z).val = (z : ℚ) := rfl

@[simp] theorem val_float (q : ℚ) : (Num.float q).val = q := rfl

theorem val_add (a b : Num) : (a.add b).val = a.val + b.val := by
  cases a <;> cases b <;> simp [Num.add, Num.val]

theorem val_mul (a b : Num) : (a.mul b).val = a.val * b.val := by
  cases a <;> cases b <;> simp [Num.mul, Num.val]

theorem sum_set_of_lt (L : List ℚ) (n : ℕ) (a : ℚ) (h : n < L.length) :
    (L.set n a).sum = L.sum + a - L[n] := by
  rw [List.sum_set, if_pos h, ← List.sum_take_add_sum_drop L n,
    List.drop_eq_getElem_cons h, List.sum_cons]
  ring

theorem addAt_some {bits : ℕ} {g : List (List Num)} (hg : gridShape bits g)
    {r c : ℕ} (hr : r < bits) (hc : c < bits) (v : Num) :
    ∃ g', addAt g r c v = some g' ∧ gridShape bits g' ∧
      gridSumVal g' = gridSumVal g + v.val := by
  obtain ⟨hlen, hrows⟩ := hg
  have hr' : r < g.length := by omega
  have hrowlen : g[r].length = bits := hrows _ (List.getElem_mem hr')
  have hc' : c < g[r].length := by omega
  have hget : g.get? r = some g[r] := by
    rw [List.get?_eq_getElem?]
    exact List.getElem?_eq_getElem hr'
  have hget2 : g[r].get? c = some (g[r][c]) := by
    rw [List.get?_eq_getElem?]
    exact List.getElem?_eq_getElem hc'
  refine ⟨g.set r (g[r].set c ((g[r][c]).add v)), ?_, ⟨by simpa using hlen, ?_⟩, ?_⟩
  · unfold addAt
    rw [hget]
    dsimp only
    rw [hget2]
  · intro row hrow
    rcases List.mem_or_eq_of_mem_set hrow with hmem | heq
    · exact hrows _ hmem
    · rw [heq, List.length_set]
      exact hrowlen
  · unfold gridSumVal
    rw [List.map_set, sum_set_of_lt _ _ _ (by simpa using hr'),
      List.getElem_map, List.map_set, sum_set_of_lt _ _ _ (by simpa using hc'),
      List.getElem_map, val_add]
    ring

theorem addPixel_some {bits : ℕ} {g : List (List Num)} (hg : gridShape bits g) (v : Num)
    (yp xp : ℕ × ℕ × Num × Num)
    (hy1 : yp.1 < bits) (hy2 : yp.2.1 < bits) (hx1 : xp.1 < bits) (hx2 : xp.2.1 < bits) :
    ∃ g', addPixel g v yp xp = some g' ∧ gridShape bits g' ∧
      gridSumVal g' = gridSumVal g +
        v.val * (yp.2.2.1.val + yp.2.2.2.val) * (xp.2.2.1.val + xp.2.2.2.val) := by
  obtain ⟨bt, bb, wt, wb⟩ := yp
  obtain ⟨bl, br, wl, wr⟩ := xp
  dsimp only at hy1 hy2 hx1 hx2 ⊢
  obtain ⟨g1, ha1, hs1, hm1⟩ := addAt_some hg hy1 hx1 ((v.mul wt).mul wl)
  obtain ⟨g2, ha2, hs2, hm2⟩ := addAt_some hs1 hy1 hx2 ((v.mul wt).mul wr)
  obtain ⟨g3, ha3, hs3, hm3⟩ := addAt_some hs2 hy2 hx1 ((v.mul wb).mul wl)
  obtain ⟨g4, ha4, hs4, hm4⟩ := addAt_some hs3 hy2 hx2 ((v.mul wb).mul wr)
  refine ⟨g4, ?_, hs4, ?_⟩
  · unfold addPixel
    simp only [ha1, ha2, ha3, ha4, Option.bind_eq_bind, Option.some_bind]
  · rw [hm4, hm3, hm2, hm1, val_mul, val_mul, val_mul, val_mul, val_mul, val_mul,
      val_mul, val_mul]
    ring

theorem pymod_nonneg {a b : ℚ} (hb : 0 < b) : 0 ≤ pymod a b := by
  unfold pymod
  have h := Int.floor_le (a / b)
  have h2 : b * (⌊a / b⌋ : ℚ) ≤ b * (a / b) := by
    exact mul_le_mul_of_nonneg_left h (le_of_lt hb)
  have h3 : b * (a / b) = a := by
    field_simp
  linarith

theorem mul_block_size {n bits : ℕ} (hb : 0 < bits) :
    ((n : ℚ) / (bits : ℚ)) * (bits : ℚ) = (n : ℚ) := by
  have hbq : (bits : ℚ) ≠ 0 := by
    exact_mod_cast Nat.pos_iff_ne_zero.mp hb
  field_simp

theorem floor_div_cast_lt {n bits i : ℕ} (hb : 0 < bits) (hi : i < n) :
    (⌊(i : ℚ) / ((n : ℚ) / (bits : ℚ))⌋).toNat < bits := by
  have hn : 0 < n := lt_of_le_of_lt (Nat.zero_le i) hi
  have hbs : 0 < (n : ℚ) / (bits : ℚ) := by positivity
  have h1 : (i : ℚ) / ((n : ℚ) / (bits : ℚ)) < (bits : ℚ) := by
    rw [div_lt_iff hbs, mul_comm, mul_block_size hb]
    exact_mod_cast hi
  have h0 : 0 ≤ ⌊(i : ℚ) / ((n : ℚ) / (bits : ℚ))⌋ :=
    Int.floor_nonneg.mpr (by positivity)
  have h2 : ⌊(i : ℚ) / ((n : ℚ) / (bits : ℚ))⌋ < (bits : ℤ) :=
    Int.floor_lt.mpr (by exact_mod_cast h1)
  exact (Int.toNat_lt h0).mpr h2

theorem ceil_div_cast_lt {n bits i : ℕ} (hb : 0 < bits) (hne : n % bits ≠ 0)
    (hi1 : i + 1 < n)
    (hfr : ⌊pymod ((i : ℚ) + 1) ((n : ℚ) / (bits : ℚ))⌋ ≤ 0) :
    (⌈(i : ℚ) / ((n : ℚ) / (bits : ℚ))⌉).toNat < bits := by
  have hn : 0 < n := by
    rcases Nat.eq_zero_or_pos n with h | h
    · exact absurd (by simp [h]) hne
    · exact h
  have hbits1 : 1 < bits := by
    rcases Nat.lt_or_ge bits 2 with h | h
    · interval_cases bits
      exact absurd (Nat.mod_one n) hne
    · omega
  have hbs : 0 < (n : ℚ) / (bits : ℚ) := by positivity
  set bs : ℚ := (n : ℚ) / (bits : ℚ) with hbs_def
  have hr0 : 0 ≤ pymod ((i : ℚ) + 1) bs := pymod_nonneg hbs
  have hfl0 : ⌊pymod ((i : ℚ) + 1) bs⌋ = 0 :=
    le_antisymm hfr (Int.floor_nonneg.mpr hr0)
  have hr1 : pymod ((i : ℚ) + 1) bs < 1 := by
    have := Int.floor_eq_zero_iff.mp hfl0
    exact this.2
  set k : ℤ := ⌊((i : ℚ) + 1) / bs⌋ with hk_def
  have hkbits : k ≤ (bits : ℤ) - 1 := by
    have hlt : ((i : ℚ) + 1) / bs < (bits : ℚ) := by
      rw [div_lt_iff hbs, mul_comm, hbs_def, mul_block_size hb]
      have : ((i : ℚ) + 1) = ((i + 1 : ℕ) : ℚ) := by push_cast; ring
      rw [this]
      exact_mod_cast hi1
    have hflt : ⌊((i : ℚ) + 1) / bs⌋ < (bits : ℤ) := by
      apply Int.floor_lt.mpr
      push_cast
      exact hlt
    omega
  have hbsk : (i : ℚ) + 1 = bs * k + pymod ((i : ℚ) + 1) bs := by
    unfold pymod
    rw [← hk_def]
    ring
  have hkey : (i : ℚ) < bs * ((bits : ℚ) - 1) := by
    have hble : bs * (k : ℚ) ≤ bs * ((bits : ℚ) - 1) := by
      apply mul_le_mul_of_nonneg_left _ (le_of_lt hbs)
      exact_mod_cast hkbits
    nlinarith [hr1, hbsk]
  have hceil : ⌈(i : ℚ) / bs⌉ ≤ (bits : ℤ) - 1 := by
    apply Int.ceil_le.mpr
    rw [div_le_iff hbs]
    push_cast
    nlinarith [hkey]
  have h0 : 0 ≤ ⌈(i : ℚ) / bs⌉ := Int.ceil_nonneg (by positivity)
  have : ⌈(i : ℚ) / bs⌉ < (bits : ℤ) := by omega
  exact (Int.toNat_lt h0).mpr this

/-- The per-axis data of the weighted loop is well formed: both target
block indices are in `[0, bits)` and the two weights sum to 1. -/
theorem axisParams_spec {n bits i : ℕ} (hb : 0 < bits) (hi : i < n) :
    (axisParams n bits i).1 < bits ∧ (axisParams n bits i).2.1 < bits ∧
      (axisParams n bits i).2.2.1.val + (axisParams n bits i).2.2.2.val = 1 := by
  unfold axisParams
  dsimp only
  split_ifs with he hcond
  · exact ⟨floor_div_cast_lt hb hi, floor_div_cast_lt hb hi, by norm_num⟩
  · exact ⟨floor_div_cast_lt hb hi, floor_div_cast_lt hb hi, by simp only [val_float]; ring⟩
  · push_neg at hcond
    obtain ⟨hcond1, hcond2⟩ := hcond
    refine ⟨floor_div_cast_lt hb hi, ?_, by simp only [val_float]; ring⟩
    apply ceil_div_cast_lt hb he (by omega)
    exact_mod_cast hcond1

theorem gridShape_replicate (bits : ℕ) :
    gridShape bits (List.replicate bits (List.replicate bits (Num.int 0))) := by
  refine ⟨by simp, ?_⟩
  intro row hrow
  rw [List.eq_of_mem_replicate hrow]
  simp

theorem gridSumVal_replicate (bits : ℕ) :
    gridSumVal (List.replicate bits (List.replicate bits (Num.int 0))) = 0 := by
  simp [gridSumVal, List.map_replicate, List.sum_replicate]

/-- Processing the first `k` pixels of row `y` in the weighted loop
succeeds (given a fixed well-formed row parameter) and adds exactly the
brightness of those pixels to the grid total. -/
theorem fold_x_some (tv : ℕ → ℕ → ℕ) (w bits : ℕ) (hb : 0 < bits) (y : ℕ)
    (yp : ℕ × ℕ × Num × Num) (hy1 : yp.1 < bits) (hy2 : yp.2.1 < bits)
    (hyw : yp.2.2.1.val + yp.2.2.2.val = 1) :
    ∀ k, k ≤ w → ∀ g, gridShape bits g →
      ∃ g', (List.range k).foldlM (fun g2 x =>
          addPixel g2 (Num.int (tv x y)) yp (axisParams w bits x)) g = some g' ∧
        gridShape bits g' ∧
        gridSumVal g' = gridSumVal g + ∑ x ∈ Finset.range k, (tv x y : ℚ) := by
  intro k
  induction k with
  | zero => exact fun _ g hg => ⟨g, rfl, hg, by simp⟩
  | succ k ih =>
    intro hk g hg
    obtain ⟨g1, hfold, hshape1, hsum1⟩ := ih (by omega) g hg
    obtain ⟨hx1, hx2, hxw⟩ := axisParams_spec (n := w) (i := k) hb (by omega)
    obtain ⟨g2, hadd, hshape2, hsum2⟩ :=
      addPixel_some hshape1 (Num.int (tv k y)) yp (axisParams w bits k) hy1 hy2 hx1 hx2
    refine ⟨g2, ?_, hshape2, ?_⟩
    · rw [List.range_succ, List.foldlM_append, hfold]
      simpa using hadd
    · rw [hsum2, hsum1, hxw, hyw, Finset.sum_range_succ, val_int]
      push_cast
      ring

/-- Processing the first `k` rows of the weighted loop succeeds and adds
exactly the brightness of those rows. -/
theorem fold_y_some (tv : ℕ → ℕ → ℕ) (w h bits : ℕ) (hb : 0 < bits) :
    ∀ k, k ≤ h → ∀ g, gridShape bits g →
      ∃ g', (List.range k).foldlM (fun g0 y =>
          (List.range w).foldlM (fun g2 x =>
            addPixel g2 (Num.int (tv x y)) (axisParams h bits y)
              (axisParams w bits x)) g0) g = some g' ∧
        gridShape bits g' ∧
        gridSumVal g' = gridSumVal g +
          ∑ y ∈ Finset.range k, ∑ x ∈ Finset.range w, (tv x y : ℚ) := by
  intro k
  induction k with
  | zero => exact fun _ g hg => ⟨g, rfl, hg, by simp⟩
  | succ k ih =>
    intro hk g hg
    obtain ⟨g1, hfold, hshape1, hsum1⟩ := ih (by omega) g hg
    obtain ⟨hy1, hy2, hyw⟩ := axisParams_spec (n := h) (i := k) hb (by omega)
    obtain ⟨g2, hrow, hshape2, hsum2⟩ :=
      fold_x_some tv w bits hb k (axisParams h bits k) hy1 hy2 hyw w le_rfl g1 hshape1
    refine ⟨g2, ?_, hshape2, ?_⟩
    · rw [List.range_succ, List.foldlM_append, hfold]
      simpa using hrow
    · rw [hsum2, hsum1, Finset.sum_range_succ]
      ring

/-- The weighted-distribution loop always completes for `0 < bits` (all
block indices are in range), produces a well-formed `bits × bits` grid,
and conserves total brightness exactly. -/
theorem weightedGrid_some (tv : ℕ → ℕ → ℕ) (w h bits : ℕ) (hb : 0 < bits) :
    ∃ G, weightedGrid tv w h bits = some G ∧ gridShape bits G ∧
      gridSumVal G = totalBrightness tv w h := by
  obtain ⟨G, hfold, hshape, hsum⟩ :=
    fold_y_some tv w h bits hb h le_rfl
      (List.replicate bits (List.replicate bits (Num.int 0))) (gridShape_replicate bits)
  refine ⟨G, ?_, hshape, ?_⟩
  · unfold weightedGrid
    exact hfold
  · rw [hsum, gridSumVal_replicate, totalBrightness]
    ring

/-- C10: under exact rational arithmetic the weighted-distribution loop
conserves total brightness: for every RGB or RGBA image and every grid
size `bits` on which the default algorithm routes to the weighted loop,
the loop completes and the sum of all bits² block sums equals the sum of
the per-pixel brightness values of the whole image (each pixel's two
horizontal weights sum to 1, as do its two vertical weights). -/
theorem c10_weighted_conservation (im : Img) (bits : ℕ) (hb : 0 < bits)
    (hmode : im.mode = .RGB ∨ im.mode = .RGBA)
    (hroute : ¬(im.width % bits = 0 ∧ im.height % bits = 0)) :
    ∃ G, weightedGrid (imTV im) im.width im.height bits = some G ∧
      gridSumVal G = totalBrightness (imTV im) im.width im.height := by
  obtain ⟨G, h1, _, h3⟩ := weightedGrid_some (imTV im) im.width im.height bits hb
  exact ⟨G, h1, h3⟩

/-- C10 witness: a 3×3 white RGB image with bits = 2 (3 % 2 ≠ 0, so the
default algorithm routes to the weighted loop). -/
theorem c10_weighted_conservation_witness :
    ∃ G, weightedGrid
        (imTV { width := 3, height := 3, mode := .RGB,
                pix := fun _ _ => (255, 255, 255, 255) }) 3 3 2 = some G ∧
      gridSumVal G = totalBrightness
        (imTV { width := 3, height := 3, mode := .RGB,
                pix := fun _ _ => (255, 255, 255, 255) }) 3 3 :=
  c10_weighted_conservation
    { width := 3, height := 3, mode := .RGB, pix := fun _ _ => (255, 255, 255, 255) }
    2 (by omega) (Or.inl rfl) (by simp)

/-! ### Success and shape of the thresholding and encoding stages -/

theorem bandBits_mem_bits {band : List Num} {half : ℚ} {l : List Num}
    (h : bandBits band half = some l) : ∀ e ∈ l, e = Num.int 0 ∨ e = Num.int 1 := by
  unfold bandBits at h
  rcases hm : median (band.map Num.val) with _ | m
  · rw [hm] at h
    exact absurd h (by simp)
  · rw [hm] at h
    have hl : l = band.map (fun v =>
        Num.int (if m < v.val ∨ (pyabs (v.val - m) < 1 ∧ half < m) then 1 else 0)) :=
      (Option.some.inj h).symm
    intro e he
    rw [hl] at he
    obtain ⟨v, _, rfl⟩ := List.mem_map.mp he
    split_ifs with hc
    · right; rfl
    · left; rfl

/-- `translate_blocks_to_bits` succeeds whenever the bands are nonempty;
the output has the input's length and consists of 0/1 integer bits except
for the untouched tail beyond `4 * bandsize`. -/
theorem translate_some (blocks : List Num) (ppb : ℚ) (hbs : 0 < blocks.length / 4) :
    ∃ out, translate_blocks_to_bits blocks ppb = some out ∧
      out.length = blocks.length ∧
      ∀ e ∈ out, (e = Num.int 0 ∨ e = Num.int 1) ∨
        e ∈ blocks.drop (4 * (blocks.length / 4)) := by
  set bs := blocks.length / 4 with hbs_def
  set half := ppb * 256 * 3 / 2 with hhalf_def
  have hcover : 4 * bs ≤ blocks.length := by
    rw [hbs_def]
    have := Nat.div_mul_le_self blocks.length 4
    omega
  have hlen : ∀ j, j < 4 → ((blocks.drop (j * bs)).take bs).length = bs := by
    intro j hj
    rw [List.length_take, List.length_drop]
    have h1 : j * bs + bs ≤ 4 * bs := by
      calc j * bs + bs = (j + 1) * bs := by ring
        _ ≤ 4 * bs := Nat.mul_le_mul_right bs (by omega)
    omega
  have hne : ∀ j, j < 4 → (blocks.drop (j * bs)).take bs ≠ [] := by
    intro j hj h
    have := hlen j hj
    rw [h] at this
    simp at this
    omega
  obtain ⟨l0, hl0, hl0len⟩ := bandBits_isSome (hne 0 (by omega)) half
  obtain ⟨l1, hl1, hl1len⟩ := bandBits_isSome (hne 1 (by omega)) half
  obtain ⟨l2, hl2, hl2len⟩ := bandBits_isSome (hne 2 (by omega)) half
  obtain ⟨l3, hl3, hl3len⟩ := bandBits_isSome (hne 3 (by omega)) half
  have hb0 := bandBits_mem_bits hl0
  have hb1 := bandBits_mem_bits hl1
  have hb2 := bandBits_mem_bits hl2
  have hb3 := bandBits_mem_bits hl3
  rw [hlen 0 (by omega)] at hl0len
  rw [hlen 1 (by omega)] at hl1len
  rw [hlen 2 (by omega)] at hl2len
  rw [hlen 3 (by omega)] at hl3len
  rw [Nat.zero_mul, List.drop_zero] at hl0
  rw [Nat.one_mul] at hl1
  have hmapM : (List.range 4).mapM
      (fun j => bandBits ((blocks.drop (j * bs)).take bs) half) =
      some [l0, l1, l2, l3] := by
    rw [show List.range 4 = [0, 1, 2, 3] from rfl]
    simp [List.mapM, List.mapM.loop, hl0, hl1, hl2, hl3]
  refine ⟨l0 ++ (l1 ++ (l2 ++ (l3 ++ blocks.drop (4 * bs)))), ?_, ?_, ?_⟩
  · unfold translate_blocks_to_bits
    dsimp only
    rw [← hbs_def, ← hhalf_def, hmapM]
    simp [List.append_assoc]
  · simp only [List.length_append, hl0len, hl1len, hl2len, hl3len, List.length_drop]
    omega
  · intro e he
    simp only [List.mem_append] at he
    rcases he with he | he | he | he | he
    · exact Or.inl (hb0 e he)
    · exact Or.inl (hb1 e he)
    · exact Or.inl (hb2 e he)
    · exact Or.inl (hb3 e he)
    · exact Or.inr he

theorem foldl_bin_bound (ds : List ℕ) :
    (∀ d ∈ ds, d < 2) → ∀ a, ds.foldl (fun acc d => 2 * acc + d) a < (a + 1) * 2 ^ ds.length := by
  induction ds with
  | nil => intro _ a; simp
  | cons d ds ih =>
    intro h a
    rw [List.foldl_cons, List.length_cons, pow_succ]
    have hd : d ≤ 1 := by
      have := h d (by simp)
      omega
    calc ds.foldl (fun acc d => 2 * acc + d) (2 * a + d)
        < (2 * a + d + 1) * 2 ^ ds.length := ih (fun x hx => h x (by simp [hx])) _
      _ ≤ ((a + 1) * 2) * 2 ^ ds.length := Nat.mul_le_mul_right _ (by omega)
      _ = (a + 1) * (2 ^ ds.length * 2) := by ring

theorem mapM_numStrDigits_bits (l : List Num)
    (h : ∀ e ∈ l, e = Num.int 0 ∨ e = Num.int 1) :
    l.mapM numStrDigits =
      some (l.map (fun e => if e = Num.int 1 then [1] else [0])) := by
  induction l with
  | nil => rfl
  | cons e l ih =>
    have he := h e (by simp)
    have hrest := ih (fun x hx => h x (by simp [hx]))
    rcases he with rfl | rfl <;>
      rw [List.mapM_cons, hrest] <;>
      simp [numStrDigits, decDigits, toBase, toBaseAux]

theorem flatten_bit_singletons (l : List Num) :
    (l.map (fun e => if e = Num.int 1 then [1] else [0])).flatten =
      l.map (fun e => if e = Num.int 1 then 1 else 0) := by
  induction l with
  | nil => rfl
  | cons e l ih =>
    simp only [List.map_cons, List.flatten_cons, ih]
    split_ifs <;> rfl

theorem hexChar_isHex {d : ℕ} (hd : d < 16) : isLowerHexDigit (hexChar d) = true := by
  interval_cases d <;> decide

/-- Encoding a nonempty list of 0/1 integer bits whose length is divisible
by 4 succeeds, yielding a lowercase-hex string of length `len / 4`. -/
theorem bits_to_hexhash_ok (l : List Num) (hne : l ≠ [])
    (hbits : ∀ e ∈ l, e = Num.int 0 ∨ e = Num.int 1) (h4 : 4 ∣ l.length) :
    ∃ s, bits_to_hexhash l = .ok s ∧ s.length = l.length / 4 ∧
      ∀ c ∈ s.data, isLowerHexDigit c = true := by
  have hmapM := mapM_numStrDigits_bits l hbits
  unfold bits_to_hexhash
  rw [hmapM]
  dsimp only
  rw [flatten_bit_singletons]
  set bl := l.map (fun e => if e = Num.int 1 then 1 else 0) with hbl_def
  have hbl_lt : ∀ d ∈ bl, d < 2 := by
    intro d hd
    rw [hbl_def] at hd
    obtain ⟨e, _, rfl⟩ := List.mem_map.mp hd
    split_ifs <;> omega
  have hbl_len : bl.length = l.length := by simp [hbl_def]
  have hcond : ¬(bl = [] ∨ bl.any (fun d => 2 ≤ d) = true) := by
    rintro (h | h)
    · rw [hbl_def] at h
      exact hne (by simpa using h)
    · obtain ⟨d, hd, hle⟩ := List.any_eq_true.mp h
      simp only [decide_eq_true_eq] at hle
      have := hbl_lt d hd
      omega
  rw [if_neg hcond]
  set n := bl.foldl (fun acc d => 2 * acc + d) 0 with hn_def
  have hnlt : n < 2 ^ l.length := by
    have := foldl_bin_bound bl hbl_lt 0
    rw [hbl_len] at this
    simpa using this
  obtain ⟨w, hw⟩ := h4
  have hlen0 : l.length ≠ 0 := by
    intro h
    exact hne (List.length_eq_zero.mp h)
  have hwpos : 0 < w := by omega
  have hw4 : l.length / 4 = w := by omega
  have hhexlen : (hexDigitsOf n).length ≤ w := by
    unfold hexDigitsOf
    split_ifs with h0
    · simpa using hwpos
    · rw [toBase_eq_digits (by norm_num), List.length_reverse, List.length_map]
      have h16 : n < 16 ^ w := by
        calc n < 2 ^ l.length := hnlt
          _ = 16 ^ w := by
              rw [hw, pow_mul]
              norm_num
      have hlog := (Nat.lt_pow_iff_log_lt (by norm_num) h0).mp h16
      rw [Nat.digits_len 16 n (by norm_num) h0]
      omega
  refine ⟨_, rfl, ?_, ?_⟩
  · show (hexFormat n (l.length / 4)).length = l.length / 4
    unfold hexFormat
    show (List.replicate (l.length / 4 - (hexDigitsOf n).length) '0' ++ hexDigitsOf n).length
      = l.length / 4
    rw [List.length_append, List.length_replicate, hw4]
    omega
  · intro c hc
    have hc' : c ∈ List.replicate (l.length / 4 - (hexDigitsOf n).length) '0'
        ++ hexDigitsOf n := hc
    rcases List.mem_append.mp hc' with h | h
    · rw [List.eq_of_mem_replicate h]
      decide
    · unfold hexDigitsOf at h
      split_ifs at h with h0
      · rw [List.mem_singleton.mp h]
        decide
      · rw [List.mem_reverse] at h
        obtain ⟨d, hd, rfl⟩ := List.mem_map.mp h
        rw [toBase_eq_digits (by norm_num)] at hd
        exact hexChar_isHex (Nat.digits_lt_base (by norm_num) hd)

/-- The tail of both hashing paths: thresholding a block list whose length
is a positive multiple of 4 and hex-encoding the result succeeds with a
hash of `len / 4` lowercase-hex characters. -/
theorem hash_tail_ok (result : List Num) (ppb : ℚ) (hdvd : 4 ∣ result.length)
    (hpos : result.length ≠ 0) :
    ∃ out s, translate_blocks_to_bits result ppb = some out ∧
      bits_to_hexhash out = .ok s ∧ s.length = result.length / 4 ∧
      ∀ c ∈ s.data, isLowerHexDigit c = true := by
  have hbs4 : 0 < result.length / 4 := by
    obtain ⟨k, hk⟩ := hdvd
    omega
  obtain ⟨out, hout, holen, hobits⟩ := translate_some result ppb hbs4
  have hleft : result.drop (4 * (result.length / 4)) = [] := by
    rw [Nat.mul_div_cancel' hdvd]
    exact List.drop_length result
  have hbitsall : ∀ e ∈ out, e = Num.int 0 ∨ e = Num.int 1 := by
    intro e he
    rcases hobits e he with h | h
    · exact h
    · rw [hleft] at h
      simp at h
  have hone : out ≠ [] := by
    intro h
    rw [h] at holen
    simp at holen
    omega
  obtain ⟨s, hs, hslen, hchars⟩ :=
    bits_to_hexhash_ok out hone hbitsall (holen ▸ hdvd)
  exact ⟨out, s, hout, hs, by rw [hslen, holen], hchars⟩

theorem length_grid_list (n m : ℕ) (g : ℕ → ℕ → Num) :
    ((List.range n).flatMap (fun r => (List.range m).map (fun c => g r c))).length
      = n * m := by
  rw [List.length_flatMap]
  have hc : (List.length ∘ fun r => (List.range m).map (fun c => g r c)) = fun _ => m := by
    funext r
    simp
  rw [hc, List.map_const', List.length_range, List.sum_replicate, smul_eq_mul]

theorem tail_match_ok (result : List Num) (ppb : ℚ) (bits : ℕ)
    (hlen : result.length = bits * bits) (h2 : bits % 2 = 0) (h0 : bits ≠ 0) :
    ∃ s, (match translate_blocks_to_bits result ppb with
          | none => Except.error PyError.indexError
          | some res => bits_to_hexhash res) = .ok s ∧
      s.length = bits * bits / 4 ∧ ∀ c ∈ s.data, isLowerHexDigit c = true := by
  have hdvd : 4 ∣ result.length := by
    rw [hlen]
    obtain ⟨k, hk⟩ := Nat.dvd_of_mod_eq_zero h2
    exact ⟨k * k, by rw [hk]; ring⟩
  have hpos : result.length ≠ 0 := by
    rw [hlen]
    exact Nat.mul_ne_zero h0 h0
  obtain ⟨out, s, htr, hhex, hslen, hchars⟩ := hash_tail_ok result ppb hdvd hpos
  refine ⟨s, ?_, by rw [hslen, hlen], hchars⟩
  rw [htr]
  exact hhex

theorem blockhash_even_core_ok (tv : ℕ → ℕ → ℕ) (w h bits : ℕ)
    (h2 : bits % 2 = 0) (h0 : bits ≠ 0) :
    ∃ s, blockhash_even_core tv w h bits = .ok s ∧ s.length = bits * bits / 4 ∧
      ∀ c ∈ s.data, isLowerHexDigit c = true := by
  unfold blockhash_even_core
  rw [if_neg h0]
  dsimp only
  exact tail_match_ok _ _ bits (length_grid_list bits bits _) h2 h0

theorem blockhash_weighted_core_ok (tv : ℕ → ℕ → ℕ) (w h bits : ℕ)
    (h2 : bits % 2 = 0) (h0 : bits ≠ 0) :
    ∃ s, blockhash_weighted_core tv w h bits = .ok s ∧ s.length = bits * bits / 4 ∧
      ∀ c ∈ s.data, isLowerHexDigit c = true := by
  unfold blockhash_weighted_core
  rw [if_neg h0]
  obtain ⟨G, hG, _, _⟩ := weightedGrid_some tv w h bits (Nat.pos_of_ne_zero h0)
  rw [hG]
  dsimp only
  have hlen : (blocksToList G bits).length = bits * bits := by
    unfold blocksToList
    exact length_grid_list bits bits _
  exact tail_match_ok _ _ bits hlen h2 h0

theorem blockhash_even_ok (im : Img) (bits : ℕ)
    (hmode : im.mode = .RGB ∨ im.mode = .RGBA) (h2 : bits % 2 = 0) (h0 : bits ≠ 0) :
    ∃ s, blockhash_even im bits = .ok s ∧ s.length = bits * bits / 4 ∧
      ∀ c ∈ s.data, isLowerHexDigit c = true := by
  rcases hmode with h | h <;> (unfold blockhash_even; rw [h]) <;>
    exact blockhash_even_core_ok _ _ _ _ h2 h0

/-- C4 (amended): for every even nonzero `bits` (equivalently, every
nonzero `bits` with bits² divisible by 4) and every RGB or RGBA image,
the hash computation succeeds and returns a lowercase hexadecimal string
of length exactly `bits * bits / 4`. -/
theorem c4_hash_length (im : Img) (bits : ℕ)
    (hmode : im.mode = .RGB ∨ im.mode = .RGBA) (h2 : bits % 2 = 0) (h0 : bits ≠ 0) :
    ∃ s, blockhash im bits = .ok s ∧ s.length = bits * bits / 4 ∧
      ∀ c ∈ s.data, isLowerHexDigit c = true := by
  have hcore : ∀ tv : ℕ → ℕ → ℕ, ∃ s, blockhash_core tv im bits = .ok s ∧
      s.length = bits * bits / 4 ∧ ∀ c ∈ s.data, isLowerHexDigit c = true := by
    intro tv
    unfold blockhash_core
    rw [if_neg h0]
    dsimp only
    split_ifs with hev
    · exact blockhash_even_ok im bits hmode h2 h0
    · exact blockhash_weighted_core_ok tv im.width im.height bits h2 h0
  rcases hmode with h | h <;> (unfold blockhash; rw [h]) <;> exact hcore _

/-- C4 witness: the 4×4 white RGB image with bits = 2 yields a 1-character
lowercase-hex hash. -/
theorem c4_hash_length_witness :
    ∃ s, blockhash white4 2 = .ok s ∧ s.length = 2 * 2 / 4 ∧
      ∀ c ∈ s.data, isLowerHexDigit c = true :=
  c4_hash_length white4 2 (Or.inl rfl) rfl (by omega)

/-! ### Exact division: the weighted loop coincides with `blockhash_even` -/

theorem map_range_set {α : Type} (g : ℕ → α) (n i : ℕ) (v : α) (hi : i < n) :
    ((List.range n).map g).set i v =
      (List.range n).map (fun j => if j = i then v else g j) := by
  apply List.ext_getElem?
  intro j
  rw [List.getElem?_set]
  by_cases hj : j < n
  · rw [List.getElem?_map, List.getElem?_map, List.getElem?_range hj]
    by_cases hij : i = j
    · subst hij
      simp [List.length_map, List.length_range, hi]
    · simp [hij, Ne.symm hij]
  · have h1 : (List.range n)[j]? = none := by
      rw [List.getElem?_eq_none_iff]
      simpa using hj
    rw [List.getElem?_map, List.getElem?_map, h1]
    by_cases hij : i = j
    · subst hij
      simp [List.length_map, List.length_range, hj]
    · simp [hij]

theorem addAt_gridOf {bits : ℕ} (f : ℕ → ℕ → ℤ) {r c : ℕ} (hr : r < bits)
    (hc : c < bits) (k : ℤ) :
    addAt (gridOf bits f) r c (Num.int k) =
      some (gridOf bits (fun a b => if a = r ∧ b = c then f a b + k else f a b)) := by
  have hget : (gridOf bits f).get? r =
      some ((List.range bits).map (fun b => Num.int (f r b))) := by
    unfold gridOf
    rw [List.get?_eq_getElem?, List.getElem?_map, List.getElem?_range hr]
    rfl
  have hget2 : ((List.range bits).map (fun b => Num.int (f r b))).get? c =
      some (Num.int (f r c)) := by
    rw [List.get?_eq_getElem?, List.getElem?_map, List.getElem?_range hc]
    rfl
  unfold addAt
  rw [hget]
  dsimp only
  rw [hget2]
  dsimp only
  congr 1
  rw [show (Num.int (f r c)).add (Num.int k) = Num.int (f r c + k) from rfl]
  rw [map_range_set _ bits c _ hc]
  unfold gridOf
  rw [map_range_set _ bits r _ hr]
  apply List.map_congr_left
  intro a ha
  by_cases har : a = r
  · subst har
    rw [if_pos rfl]
    apply List.map_congr_left
    intro b hb
    by_cases hbc : b = c
    · subst hbc
      simp
    · simp [hbc]
  · rw [if_neg har]
    apply List.map_congr_left
    intro b hb
    simp [har]

theorem addPixel_even_gridOf {bits : ℕ} (f : ℕ → ℕ → ℤ) {bt bl : ℕ}
    (hbt : bt < bits) (hbl : bl < bits) (m : ℤ) :
    addPixel (gridOf bits f) (Num.int m) (bt, bt, Num.int 1, Num.int 0)
        (bl, bl, Num.int 1, Num.int 0) =
      some (gridOf bits (fun a b => if a = bt ∧ b = bl then f a b + m else f a b)) := by
  unfold addPixel
  dsimp only
  rw [show ((Num.int m).mul (Num.int 1)).mul (Num.int 1) = Num.int (m * 1 * 1) from rfl,
    show ((Num.int m).mul (Num.int 1)).mul (Num.int 0) = Num.int (m * 1 * 0) from rfl,
    show ((Num.int m).mul (Num.int 0)).mul (Num.int 1) = Num.int (m * 0 * 1) from rfl,
    show ((Num.int m).mul (Num.int 0)).mul (Num.int 0) = Num.int (m * 0 * 0) from rfl]
  rw [addAt_gridOf f hbt hbl]
  simp only [Option.bind_eq_bind, Option.some_bind]
  rw [addAt_gridOf _ hbt hbl]
  simp only [Option.bind_eq_bind, Option.some_bind]
  rw [addAt_gridOf _ hbt hbl]
  simp only [Option.bind_eq_bind, Option.some_bind]
  rw [addAt_gridOf _ hbt hbl]
  congr 1
  unfold gridOf
  apply List.map_congr_left
  intro a _
  apply List.map_congr_left
  intro b _
  congr 1
  by_cases h : a = bt ∧ b = bl <;> simp [h]

theorem getCell_gridOf {bits : ℕ} (f : ℕ → ℕ → ℤ) {r c : ℕ} (hr : r < bits)
    (hc : c < bits) : getCell (gridOf bits f) r c = Num.int (f r c) := by
  unfold getCell gridOf
  have h1 : (List.map (fun a => List.map (fun b => Num.int (f a b)) (List.range bits))
      (List.range bits)).getD r [] =
      List.map (fun b => Num.int (f r b)) (List.range bits) := by
    rw [List.getD_eq_getElem?_getD, List.getElem?_map, List.getElem?_range hr]
    rfl
  rw [h1, List.getD_eq_getElem?_getD, List.getElem?_map, List.getElem?_range hc]
  rfl

theorem flatMap_congr {α β : Type} {l : List α} {f g : α → List β}
    (h : ∀ a ∈ l, f a = g a) : l.flatMap f = l.flatMap g := by
  induction l with
  | nil => rfl
  | cons a l ih =>
    rw [List.flatMap_cons, List.flatMap_cons, h a (by simp),
      ih (fun x hx => h x (by simp [hx]))]

theorem foldl_add_eq_sum (g : ℕ → ℤ) :
    ∀ (n : ℕ) (a : ℤ), (List.range n).foldl (fun acc i => acc + g i) a =
      a + ∑ i ∈ Finset.range n, g i := by
  intro n
  induction n with
  | zero => intro a; simp
  | succ n ih =>
    intro a
    rw [List.range_succ, List.foldl_append, ih, List.foldl_cons, List.foldl_nil,
      Finset.sum_range_succ]
    ring

theorem sum_ite_div_eq (G : ℕ → ℤ) (bits bsy r : ℕ) (hr : r < bits) :
    ∑ y ∈ Finset.range (bits * bsy), (if y / bsy = r then G y else 0) =
      ∑ iy ∈ Finset.range bsy, G (r * bsy + iy) := by
  rcases Nat.eq_zero_or_pos bsy with h0 | hpos
  · subst h0
    simp
  · rw [← Finset.sum_filter]
    have hfe : (Finset.range (bits * bsy)).filter (fun y => y / bsy = r) =
        Finset.Ico (r * bsy) ((r + 1) * bsy) := by
      ext y
      simp only [Finset.mem_filter, Finset.mem_range, Finset.mem_Ico]
      constructor
      · rintro ⟨hy, hdiv⟩
        constructor
        · rw [← hdiv]
          exact Nat.div_mul_le_self y bsy
        · exact (Nat.div_lt_iff_lt_mul hpos).mp (by omega)
      · rintro ⟨h1, h2⟩
        have hge : r ≤ y / bsy := (Nat.le_div_iff_mul_le hpos).mpr h1
        have hlt : y / bsy < r + 1 := (Nat.div_lt_iff_lt_mul hpos).mpr h2
        refine ⟨?_, by omega⟩
        calc y < (r + 1) * bsy := h2
          _ ≤ bits * bsy := Nat.mul_le_mul_right _ (by omega)
    rw [hfe, Finset.sum_Ico_eq_sum_range,
      show (r + 1) * bsy - r * bsy = bsy from by rw [Nat.succ_mul]; omega]

theorem div_idx_lt {n bits i : ℕ} (hb : 0 < bits) (he : n % bits = 0) (hi : i < n) :
    i / (n / bits) < bits := by
  have hn : 0 < n := lt_of_le_of_lt (Nat.zero_le i) hi
  have hd := Nat.dvd_of_mod_eq_zero he
  have hbs : 0 < n / bits := Nat.div_pos (Nat.le_of_dvd hn hd) hb
  rw [Nat.div_lt_iff_lt_mul hbs]
  calc i < n := hi
    _ = bits * (n / bits) := (Nat.mul_div_cancel' hd).symm

theorem cast_div_even {n bits : ℕ} (hb : 0 < bits) (he : n % bits = 0) :
    (n : ℚ) / (bits : ℚ) = ((n / bits : ℕ) : ℚ) := by
  have hbq : (bits : ℚ) ≠ 0 := by
    exact_mod_cast Nat.pos_iff_ne_zero.mp hb
  rw [div_eq_iff hbq]
  exact_mod_cast (Nat.div_mul_cancel (Nat.dvd_of_mod_eq_zero he)).symm

/-- On an axis whose length divides evenly, the weighted loop's per-pixel
parameters collapse to a single block index with integer weights 1 and 0
(the fast branch of lines 109-112 / 129-132). -/
theorem axisParams_even (n bits i : ℕ) (hb : 0 < bits) (he : n % bits = 0)
    (hi : i < n) :
    axisParams n bits i = (i / (n / bits), i / (n / bits), Num.int 1, Num.int 0) := by
  unfold axisParams
  dsimp only
  rw [if_pos he, cast_div_even hb he]
  have hfl : ⌊(i : ℚ) / ((n / bits : ℕ) : ℚ)⌋ = ((i / (n / bits) : ℕ) : ℤ) := by
    rw [show ((i : ℚ)) = (((i : ℤ) : ℚ)) from by push_cast; ring,
      Rat.floor_intCast_div_natCast]
    exact_mod_cast (Int.natCast_div i (n / bits)).symm
  rw [hfl, Int.toNat_natCast]

/-- Even-axis row fold: with both weights integral (1 and 0), processing
the first `k` pixels of row `y` adds each pixel's brightness to the single
block `(bt, x / (w / bits))`. -/
theorem fold_x_even (tv : ℕ → ℕ → ℕ) (w bits : ℕ) (hb : 0 < bits) (hwe : w % bits = 0)
    (y bt : ℕ) (hbt : bt < bits) :
    ∀ k, k ≤ w → ∀ f : ℕ → ℕ → ℤ,
      (List.range k).foldlM (fun g2 x =>
        addPixel g2 (Num.int (tv x y)) (bt, bt, Num.int 1, Num.int 0)
          (axisParams w bits x)) (gridOf bits f) =
      some (gridOf bits (fun a b => f a b +
        if a = bt then
          ∑ x ∈ Finset.range k, (if x / (w / bits) = b then (tv x y : ℤ) else 0)
        else 0)) := by
  intro k
  induction k with
  | zero =>
    intro _ f
    simp only [List.range_zero, List.foldlM_nil]
    congr 1
    unfold gridOf
    apply List.map_congr_left
    intro a _
    apply List.map_congr_left
    intro b _
    congr 1
    simp
  | succ k ih =>
    intro hk f
    rw [List.range_succ, List.foldlM_append, ih (by omega) f]
    simp only [Option.bind_eq_bind, Option.some_bind, List.foldlM_cons, List.foldlM_nil]
    rw [axisParams_even w bits k hb hwe (by omega),
      addPixel_even_gridOf _ hbt (div_idx_lt hb hwe (show k < w by omega)) _]
    simp only [Option.bind_eq_bind, Option.some_bind, Option.pure_def]
    congr 1
    unfold gridOf
    apply List.map_congr_left
    intro a _
    apply List.map_congr_left
    intro b _
    congr 1
    dsimp only
    rw [Finset.sum_range_succ]
    by_cases ha : a = bt
    · subst ha
      by_cases hbc : b = k / (w / bits)
      · subst hbc
        rw [if_pos ⟨rfl, rfl⟩, if_pos rfl, if_pos rfl, if_pos rfl]
        ring
      · rw [if_neg (fun h => hbc h.2), if_pos rfl, if_pos rfl,
          if_neg (fun h => hbc h.symm)]
        ring
    · rw [if_neg (fun h => ha h.1), if_neg ha, if_neg ha]

/-- On an evenly divisible image the weighted loop computes exactly the
per-block brightness sums of the exact-division partition. -/
theorem weightedGrid_even (tv : ℕ → ℕ → ℕ) (w h bits : ℕ) (hb : 0 < bits)
    (hwe : w % bits = 0) (hhe : h % bits = 0) :
    weightedGrid tv w h bits = some (gridOf bits (fun r c =>
      ∑ y ∈ Finset.range h, if y / (h / bits) = r then
        (∑ x ∈ Finset.range w, if x / (w / bits) = c then (tv x y : ℤ) else 0)
      else 0)) := by
  suffices H : ∀ k, k ≤ h → ∀ f : ℕ → ℕ → ℤ,
      (List.range k).foldlM (fun g0 y => (List.range w).foldlM (fun g2 x =>
        addPixel g2 (Num.int (tv x y)) (axisParams h bits y) (axisParams w bits x)) g0)
        (gridOf bits f) =
      some (gridOf bits (fun r c => f r c +
        ∑ y ∈ Finset.range k, (if y / (h / bits) = r then
          (∑ x ∈ Finset.range w, if x / (w / bits) = c then (tv x y : ℤ) else 0)
        else 0))) by
    unfold weightedGrid
    have hinit : List.replicate bits (List.replicate bits (Num.int 0)) =
        gridOf bits (fun _ _ => 0) := by
      unfold gridOf
      rw [List.map_const']
      congr 1
      · simp
      · rw [List.map_const']
        congr 1
        simp
    rw [hinit, H h le_rfl (fun _ _ => 0)]
    congr 1
    unfold gridOf
    apply List.map_congr_left
    intro a _
    apply List.map_congr_left
    intro b _
    congr 1
    simp
  intro k
  induction k with
  | zero =>
    intro _ f
    simp only [List.range_zero, List.foldlM_nil]
    congr 1
    unfold gridOf
    apply List.map_congr_left
    intro a _
    apply List.map_congr_left
    intro b _
    congr 1
    simp
  | succ k ih =>
    intro hk f
    rw [List.range_succ, List.foldlM_append, ih (by omega) f]
    simp only [Option.bind_eq_bind, Option.some_bind, List.foldlM_cons, List.foldlM_nil]
    rw [axisParams_even h bits k hb hhe (by omega),
      fold_x_even tv w bits hb hwe k (k / (h / bits))
        (div_idx_lt hb hhe (show k < h by omega)) w le_rfl _]
    simp only [Option.bind_eq_bind, Option.some_bind, Option.pure_def]
    congr 1
    unfold gridOf
    apply List.map_congr_left
    intro a _
    apply List.map_congr_left
    intro b _
    congr 1
    dsimp only
    rw [Finset.sum_range_succ]
    by_cases ha : a = k / (h / bits)
    · subst ha
      rw [if_pos rfl]
      ring
    · rw [if_neg ha, if_neg (fun hs => ha hs.symm)]
      ring

theorem sum_ite_div_eq' (G : ℕ → ℤ) (bits bsy r n : ℕ) (hr : r < bits)
    (hn : n = bits * bsy) :
    ∑ y ∈ Finset.range n, (if y / bsy = r then G y else 0) =
      ∑ iy ∈ Finset.range bsy, G (r * bsy + iy) := by
  subst hn
  exact sum_ite_div_eq G bits bsy r hr

/-- On an evenly divisible image the weighted loop's block `(r, c)` holds
exactly the nested-loop block sum of `blockhash_even`. -/
theorem even_cell_value (tv : ℕ → ℕ → ℕ) (w h bits r c : ℕ) (hb : 0 < bits)
    (hwe : w % bits = 0) (hhe : h % bits = 0) (hr : r < bits) (hc : c < bits) :
    (∑ y ∈ Finset.range h, if y / (h / bits) = r then
        (∑ x ∈ Finset.range w, if x / (w / bits) = c then (tv x y : ℤ) else 0) else 0) =
    (List.range (h / bits)).foldl (fun acc iy =>
      (List.range (w / bits)).foldl (fun acc2 ix =>
        acc2 + (tv (c * (w / bits) + ix) (r * (h / bits) + iy) : ℤ)) acc) 0 := by
  have hh : h = bits * (h / bits) := (Nat.mul_div_cancel' (Nat.dvd_of_mod_eq_zero hhe)).symm
  have hw : w = bits * (w / bits) := (Nat.mul_div_cancel' (Nat.dvd_of_mod_eq_zero hwe)).symm
  calc (∑ y ∈ Finset.range h, if y / (h / bits) = r then
        (∑ x ∈ Finset.range w, if x / (w / bits) = c then (tv x y : ℤ) else 0) else 0)
      = ∑ iy ∈ Finset.range (h / bits),
          ∑ x ∈ Finset.range w, (if x / (w / bits) = c then (tv x (r * (h / bits) + iy) : ℤ) else 0) :=
        sum_ite_div_eq' (fun y => ∑ x ∈ Finset.range w,
          if x / (w / bits) = c then (tv x y : ℤ) else 0) bits (h / bits) r h hr hh
    _ = ∑ iy ∈ Finset.range (h / bits),
          ∑ ix ∈ Finset.range (w / bits), (tv (c * (w / bits) + ix) (r * (h / bits) + iy) : ℤ) := by
        apply Finset.sum_congr rfl
        intro iy _
        exact sum_ite_div_eq' (fun x => (tv x (r * (h / bits) + iy) : ℤ))
          bits (w / bits) c w hc hw
    _ = (List.range (h / bits)).foldl (fun acc iy =>
          (List.range (w / bits)).foldl (fun acc2 ix =>
            acc2 + (tv (c * (w / bits) + ix) (r * (h / bits) + iy) : ℤ)) acc) 0 := by
        simp only [foldl_add_eq_sum]
        rw [zero_add]

/-- The weighted-distribution tail and the exact-division body agree on any
evenly divisible geometry (any sampler, any `bits`, zero included). -/
theorem weighted_core_even_eq (tv : ℕ → ℕ → ℕ) (w h bits : ℕ)
    (hwe : w % bits = 0) (hhe : h % bits = 0) :
    blockhash_weighted_core tv w h bits = blockhash_even_core tv w h bits := by
  by_cases h0 : bits = 0
  · unfold blockhash_weighted_core blockhash_even_core
    rw [if_pos h0, if_pos h0]
  · have hb : 0 < bits := Nat.pos_of_ne_zero h0
    unfold blockhash_weighted_core blockhash_even_core
    rw [if_neg h0, if_neg h0, weightedGrid_even tv w h bits hb hwe hhe]
    dsimp only
    have hppb : (w : ℚ) / (bits : ℚ) * ((h : ℚ) / (bits : ℚ)) =
        ((w / bits * (h / bits) : ℕ) : ℚ) := by
      rw [cast_div_even hb hwe, cast_div_even hb hhe]
      push_cast
      ring
    rw [hppb]
    have hlist : blocksToList (gridOf bits (fun r c =>
        ∑ y ∈ Finset.range h, if y / (h / bits) = r then
          (∑ x ∈ Finset.range w, if x / (w / bits) = c then (tv x y : ℤ) else 0)
        else 0)) bits =
        (List.range bits).flatMap (fun y =>
          (List.range bits).map (fun x =>
            Num.int ((List.range (h / bits)).foldl (fun acc iy =>
              (List.range (w / bits)).foldl (fun acc2 ix =>
                acc2 + (tv (x * (w / bits) + ix) (y * (h / bits) + iy) : ℤ)) acc) 0))) := by
      unfold blocksToList
      apply flatMap_congr
      intro r hrmem
      apply List.map_congr_left
      intro c hcmem
      rw [List.mem_range] at hrmem
      rw [List.mem_range] at hcmem
      rw [getCell_gridOf _ hrmem hcmem]
      congr 1
      exact even_cell_value tv w h bits r c hb hwe hhe hrmem hcmem
    rw [hlist]

/-- C2: on every image whose width and height are both exactly divisible
by `bits`, running the sub-pixel weighted aggregation loop (the
weighted-distribution algorithm, without the even-division shortcut)
yields exactly the same result as the exact-division algorithm
`blockhash_even` — the same hash string, or the identical error. -/
theorem c2_weighted_eq_even_on_exact_division (im : Img) (bits : ℕ)
    (hwe : im.width % bits = 0) (hhe : im.height % bits = 0) :
    blockhash_weighted im bits = blockhash_even im bits := by
  unfold blockhash_weighted blockhash_even
  rcases him : im.mode with _ | _ | s
  · exact weighted_core_even_eq _ _ _ _ hwe hhe
  · exact weighted_core_even_eq _ _ _ _ hwe hhe
  · rfl

/-- C2 witness: the 4×4 white RGB image with bits = 2 (exact division)
hashes identically through the weighted loop and the exact algorithm. -/
theorem c2_weighted_eq_even_on_exact_division_witness :
    blockhash_weighted white4 2 = blockhash_even white4 2 :=
  c2_weighted_eq_even_on_exact_division white4 2 (by decide) (by decide)

end Blockhash
